import Mathlib

/-!
Shallow embedding of the propositional-logic engine of this repository
(files `propositions/syntax.py` and `propositions/semantics.py`) and proofs
of the specified properties.

Conventions of the embedding:
* Python strings become `String` (inspected through their `List Char` data).
* Python dictionaries (models) become association lists built by an
  insert-or-overwrite operation, preserving insertion order of keys, which
  is exactly the observable behaviour of a Python `dict`.
* A Python function that can raise on some input is embedded with an
  `Option` result on that input (e.g. `is_variable` of the empty string,
  which indexes `string[0]` unconditionally).
* The recursive-descent routine `_parse_prefix` recurses on the unconsumed
  suffix of the input; every recursive call receives a strictly shorter
  string, so running the recursion with `s.length` units of fuel computes
  the same function.  `parsePrefixF` is the fuelled recursion and
  `parsePrefixTop` instantiates the fuel; fuel-irrelevance is proved below
  (`parsePrefixF_fuel_irrel`).
* Python's `str.isdigit` is embedded as decimal-digit testing (`Char.isDigit`);
  the repository only ever uses ASCII formula text.
-/

namespace Prop1

/-- Embedding of `is_variable` of `propositions/syntax.py`.  The Python code
unconditionally reads `string[0]`, so on the empty string it raises
`IndexError` instead of returning; this partiality is embedded as `none`.
On a non-empty string it returns whether the first character is between
`'p'` and `'z'` and the remaining characters, if any, are all decimal
digits. -/
def is_variable (s : String) : Option Bool :=
  match s.data with
  | [] => none
  | c :: rest =>
      some ((decide ('p' ≤ c) && decide (c ≤ 'z')) &&
        (rest.isEmpty || rest.all Char.isDigit))

/-- Total view of `is_variable` for the call sites of the source that only
ever pass non-empty strings (roots of constructed formulas, single-character
tokens inside the parser). -/
def is_variableB (s : String) : Bool :=
  (is_variable s).getD false

/-- Embedding of `is_constant` of `propositions/syntax.py`. -/
def is_constant (s : String) : Bool :=
  s = "T" || s = "F"

/-- Embedding of `is_unary` of `propositions/syntax.py`. -/
def is_unary (s : String) : Bool :=
  s = "~"

/-- Embedding of `is_binary` of `propositions/syntax.py` (chapter-3 operator
set: `&`, `|`, `->`). -/
def is_binary (s : String) : Bool :=
  s = "&" || s = "|" || s = "->"

/-- Embedding of the `Formula` class of `propositions/syntax.py`.  The
Python constructor stores `root` alone, `root` with `first`, or `root` with
`first` and `second`; the three shapes are the three constructors here.
The constructor's `assert`s on the root string are the separate predicate
`Formula.valid` below. -/
inductive Formula where
  | leaf (root : String)
  | unary (root : String) (first : Formula)
  | binary (root : String) (first : Formula) (second : Formula)
deriving DecidableEq

/-- Constructor preconditions of the `Formula` class: a childless node's
root is a variable or a constant, a one-child node's root is the unary
operator, a two-child node's root is a binary operator.  In Python these
are `assert`s, so every constructible `Formula` object satisfies them. -/
def Formula.valid : Formula → Bool
  | .leaf r => is_variableB r || is_constant r
  | .unary r f => is_unary r && f.valid
  | .binary r f s => is_binary r && f.valid && s.valid

/-- Embedding of `Formula.__repr__` of `propositions/syntax.py`: the
standard string representation.  The Python code dispatches on the root
token class, which for constructible formulas coincides with the node
shape used here. -/
def Formula.repr : Formula → String
  | .leaf r => r
  | .unary r f => r ++ Formula.repr f
  | .binary r f s => "(" ++ Formula.repr f ++ r ++ Formula.repr s ++ ")"

/-- Embedding of `Formula.variables` of `propositions/syntax.py` as a list
with set semantics (the Python code returns a `set`). -/
def Formula.vars : Formula → List String
  | .leaf r => if is_variableB r then [r] else []
  | .unary _ f => f.vars
  | .binary _ f s => f.vars ++ s.vars

/-- Embedding of `Formula.parse_variable` of `propositions/syntax.py`: if
the first character is a variable letter, greedily consume it and every
immediately following digit as one token and return that variable node with
the unconsumed suffix; otherwise report failure.  The Python `while` loop
over `string[i].isdigit()` is the take/drop of the digit run. -/
def parse_variable (s : List Char) : Option Formula × List Char :=
  match s with
  | [] => (none, "error parsing variable".data)
  | c :: rest =>
      if is_variableB (String.mk [c]) then
        (some (.leaf (String.mk (c :: rest.takeWhile Char.isDigit))),
          rest.dropWhile Char.isDigit)
      else (none, "error parsing variable".data)

/-- Embedding of `Formula.parse_operator` of `propositions/syntax.py`: a
leading `-` must be followed by `>` to form the token `->`; a candidate
single-character token is accepted when `is_binary` holds. -/
def parse_operator (s : List Char) : Option String × List Char :=
  match s with
  | [] => (none, "invalid string for operator".data)
  | c :: rest =>
      if c = '-' then
        match rest with
        | '>' :: rest2 =>
            if is_binary "->" then (some "->", rest2)
            else (none, "invalid string for operator".data)
        | _ => (none, "invalid string expected >".data)
      else
        if is_binary (String.mk [c]) then (some (String.mk [c]), rest)
        else (none, "invalid string for operator".data)

/-- Embedding of `Formula._parse_prefix` of `propositions/syntax.py`,
fuelled.  On the empty string it fails with the source's message; on
`(`, it parses a first operand, a binary operator, a second operand and a
closing parenthesis; on a variable letter it defers to `parse_variable`;
on a constant it consumes one character; on `~` it parses the operand and
wraps it; anything else fails.  Each recursive call receives a strictly
shorter string, so the fuel-exhaustion branch is unreachable once the fuel
is at least the string length (proved in `parsePrefixF_fuel_irrel`). -/
def parsePrefixF : Nat → List Char → Option Formula × List Char
  | _, [] => (none, "Error, empty string".data)
  | 0, _ :: _ => (none, "Error, empty string".data)
  | fuel + 1, c :: rest =>
      if c = '(' then
        match parsePrefixF fuel rest with
        | (none, _) => (none, "error parsing string all formula".data)
        | (some f1, s1) =>
            match parse_operator s1 with
            | (none, _) => (none, "error parsing string all formula".data)
            | (some op, s2) =>
                match parsePrefixF fuel s2 with
                | (none, _) => (none, "error parsing string all formula".data)
                | (some f2, s3) =>
                    match s3 with
                    | ')' :: s4 => (some (.binary op f1 f2), s4)
                    | _ => (none, "error parsing string all formula".data)
      else if is_variableB (String.mk [c]) then
        parse_variable (c :: rest)
      else if is_constant (String.mk [c]) then
        (some (.leaf (String.mk [c])), rest)
      else if is_unary (String.mk [c]) then
        match parsePrefixF fuel rest with
        | (some f1, s1) => (some (.unary "~" f1), s1)
        | (none, _) => (none, "invalid string".data)
      else (none, "invalid string".data)

/-- Entry point of the embedded `_parse_prefix`: run the fuelled recursion
with as much fuel as there are characters. -/
def parsePrefixTop (s : String) : Option Formula × List Char :=
  parsePrefixF s.data.length s.data

/-- Embedding of `Formula.is_formula` of `propositions/syntax.py`.  The
Python code checks `res is not None and res[1] == ""`; `_parse_prefix`
always returns a pair (never `None`), and on failure the second component
is a non-empty error message, so the test reduces to the unconsumed suffix
being empty. -/
def is_formula (s : String) : Bool :=
  decide ((parsePrefixTop s).2 = [])

/-- Embedding of `Formula.parse` of `propositions/syntax.py`.  The Python
code asserts `is_formula` and returns the parsed prefix; the violated
assertion is embedded as `none`. -/
def parse (s : String) : Option Formula :=
  if is_formula s then (parsePrefixTop s).1 else none

end Prop1

namespace Prop1

/-- Embedding of the `Model` type of `propositions/semantics.py`: a Python
dictionary from variable names to truth values, embedded as an association
list with the dictionary's key-insertion order. -/
abbrev Model := List (String × Bool)

/-- Dictionary write `d[k] = v`: overwrite the value of an existing key in
place, otherwise append the new key at the end, exactly as a Python `dict`
behaves observably. -/
def dinsert : Model → String → Bool → Model
  | [], k, v => [(k, v)]
  | (k', v') :: rest, k, v =>
      if k' = k then (k, v) :: rest else (k', v') :: dinsert rest k v

/-- Dictionary read `d.get(k)`. -/
def modelGet : Model → String → Option Bool
  | [], _ => none
  | (k', v') :: rest, k => if k' = k then some v' else modelGet rest k

/-- Dictionary key view `d.keys()` in insertion order (the source's
`list(model.keys())`). -/
def modelKeys (m : Model) : List String :=
  m.map Prod.fst

/-- Check that the model covers the formula: the source's precondition
`formula.variables().issubset(variables(model))` of `evaluate`. -/
def covers (m : Model) (f : Formula) : Bool :=
  f.vars.all fun v => (modelGet m v).isSome

/-- Embedding of `evaluate` of `propositions/semantics.py`.  A variable is
looked up with `model.get` (the source's asserts guarantee the key is
present; an absent key is defaulted), `F` and `T` are the boolean literals,
`~` negates the operand, `&` and `|` are the boolean connectives, and for
`->` the source returns true when the first operand is false or both are
true. -/
def evaluate : Formula → Model → Bool
  | .leaf r, m =>
      if is_variableB r then (modelGet m r).getD false
      else if r = "F" then false
      else if r = "T" then true
      else false
  | .unary _ f, m => !evaluate f m
  | .binary r f s, m =>
      if r = "&" then evaluate f m && evaluate s m
      else if r = "|" then evaluate f m || evaluate s m
      else if r = "->" then
        let left_res := evaluate f m
        let right_res := evaluate s m
        if left_res = false || (left_res && right_res) then true else false
      else false

/-- Embedding of `itertools.product([False, True], repeat=n)` as used by
`all_models`: every length-`n` tuple over `{False, True}`, the first
position varying slowest. -/
def boolTuples : Nat → List (List Bool)
  | 0 => [[]]
  | n + 1 =>
      (boolTuples n).map (fun t => false :: t) ++
        (boolTuples n).map (fun t => true :: t)

/-- Embedding of the dictionary-building loop of `all_models`:
`cur_dict[v] = assignment[i]` for each variable in order. -/
def buildModel (variableList : List String) (assignment : List Bool) : Model :=
  (variableList.zip assignment).foldl (fun d p => dinsert d p.1 p.2) []

/-- Embedding of `all_models` of `propositions/semantics.py`: one model per
tuple of `itertools.product([False, True], repeat=n)`, in product order. -/
def all_models (variableList : List String) : List Model :=
  (boolTuples variableList.length).map (buildModel variableList)

/-- Embedding of `truth_values` of `propositions/semantics.py`. -/
def truth_values (f : Formula) (models : List Model) : List Bool :=
  models.map fun m => evaluate f m

/-- Embedding of `_synthesize_for_model_helper` of
`propositions/semantics.py`: over a non-empty key list, conjoin
left-to-right one literal per key, the bare variable when the model maps it
to true and its negation otherwise.  The Python code indexes `vars[0]`, so
the empty list (never passed: the caller asserts a non-empty model) is
given a dummy value here. -/
def synthHelper : List String → Model → Formula
  | [], _ => .leaf "F"
  | v :: vs, m =>
      let cur :=
        if (modelGet m v).getD false then Formula.leaf v
        else Formula.unary "~" (Formula.leaf v)
      match vs with
      | [] => cur
      | _ :: _ => .binary "&" cur (synthHelper vs m)

/-- Embedding of `_synthesize_for_model` of `propositions/semantics.py`. -/
def synthForModel (m : Model) : Formula :=
  synthHelper (modelKeys m) m

/-- Embedding of the accumulation step of the loop of `synthesize`: when
the truth-table entry of the current model index is true, start the
disjunction or extend it on the right with the model's conjunctive
clause. -/
def synthStep (values : List Bool) (acc : Option Formula) (p : Nat × Model) :
    Option Formula :=
  if values.getD p.1 false then
    match acc with
    | none => some (synthForModel p.2)
    | some f => some (.binary "|" f (synthForModel p.2))
  else acc

/-- Embedding of `synthesize` of `propositions/semantics.py`: fold the
accumulation step over the enumerated models; if no table entry was true,
return the fixed contradiction `variables[0] & ~variables[0]`.  The source
asserts a non-empty variable list and indexes `variables[0]`, so the empty
list is given a dummy value here. -/
def synthesize (variableList : List String) (values : List Bool) : Formula :=
  match (all_models variableList).enum.foldl (synthStep values) none with
  | some f => f
  | none =>
      match variableList with
      | [] => .leaf "F"
      | v :: _ => .binary "&" (.leaf v) (.unary "~" (.leaf v))

/-- Lookup in a substitution map (a Python dictionary from names to
formulas, embedded as an association list). -/
def lookupFormula : List (String × Formula) → String → Option Formula
  | [], _ => none
  | (k', f) :: rest, k => if k' = k then some f else lookupFormula rest k

/-- Modelled from the spec: the body of `Formula.substitute_variables` of
`propositions/syntax.py` is missing from the source (Task 3.3, only the
precondition asserts are present), so the function is modelled from the
specification's words: every Variable node whose name is a key is replaced
by the corresponding replacement formula, all other nodes are copied
structurally, in a single top-down pass, so variables inside replacement
formulas are never themselves substituted. -/
def substitute_variables (f : Formula) (m : List (String × Formula)) :
    Formula :=
  match f with
  | .leaf r =>
      if is_variableB r then
        match lookupFormula m r with
        | some g => g
        | none => .leaf r
      else .leaf r
  | .unary r c => .unary r (substitute_variables c m)
  | .binary r a b =>
      .binary r (substitute_variables a m) (substitute_variables b m)

/-- Modelled from the spec: the body of `Formula.substitute_operators` of
`propositions/syntax.py` is missing from the source (Task 3.4, only the
precondition asserts are present), so the function is modelled from the
specification's words: children are rewritten first, and every node whose
root is a key of the map is replaced by the key's template with `p`
substituted by the already-rewritten first operand and `q` by the
already-rewritten second operand (the map's keys are constants or
operators, and templates only use the variables `p` and `q`). -/
def substitute_operators (f : Formula) (m : List (String × Formula)) :
    Formula :=
  match f with
  | .leaf r =>
      match lookupFormula m r with
      | some t => t
      | none => .leaf r
  | .unary r c =>
      let c' := substitute_operators c m
      match lookupFormula m r with
      | some t => substitute_variables t [("p", c')]
      | none => .unary r c'
  | .binary r a b =>
      let a' := substitute_operators a m
      let b' := substitute_operators b m
      match lookupFormula m r with
      | some t => substitute_variables t [("p", a'), ("q", b')]
      | none => .binary r a' b'

/-- Modelled from the spec: the `InferenceRule` class lives in
`propositions/proofs.py`, which is not part of the source files; per the
specification it is an ordered list of assumption formulas plus one
conclusion formula. -/
structure InferenceRule where
  assumptions : List Formula
  conclusion : Formula

/-- Modelled from the spec: the body of `evaluate_inference` of
`propositions/semantics.py` is missing from the source (Task 4.2, only the
model assert is present), so the function is modelled from the
specification's words: true iff, whenever every assumption evaluates to
true under the model, the conclusion also evaluates to true. -/
def evaluate_inference (rule : InferenceRule) (model : Model) : Bool :=
  !(rule.assumptions.all fun a => evaluate a model) ||
    evaluate rule.conclusion model

/-- Truth value of an optional formula (the accumulator of the loop of
`synthesize`): `None` has not started the disjunction and contributes
false. -/
def evalOpt : Option Formula → Model → Bool
  | none, _ => false
  | some f, m => evaluate f m

/-- Specification-side definition for the ordering contract of
`all_models`: the `n`-bit big-endian binary representation of `i`, used to
state that the models are emitted in the order of counting from `0` to
`2 ^ n - 1` with the most-significant bit mapped to the first variable
(`false` as the digit `0`, `true` as the digit `1`). -/
def natToBits : Nat → Nat → List Bool
  | 0, _ => []
  | n + 1, i => decide (2 ^ n ≤ i) :: natToBits n (i % 2 ^ n)

/-- Specification-side definition of standard truth-functional semantics,
written from the specification's words: a variable is looked up in the
model, `T` and `F` are the true and false literals, `~` is logical
negation of the child, `&` is conjunction, `|` is disjunction, and `->` is
material implication, false only when the first operand evaluates true and
the second false. -/
def evaluateStandard : Formula → Model → Bool
  | .leaf r, m =>
      if is_variableB r then (modelGet m r).getD false
      else if r = "T" then true
      else false
  | .unary _ f, m => !evaluateStandard f m
  | .binary r f s, m =>
      if r = "&" then evaluateStandard f m && evaluateStandard s m
      else if r = "|" then evaluateStandard f m || evaluateStandard s m
      else if r = "->" then
        !(evaluateStandard f m && !evaluateStandard s m)
      else false

end Prop1

namespace Prop1

/-- Claim C9: `all_models` applied to the empty variable list succeeds and
yields exactly one model, the empty model. -/
theorem all_models_nil_yields_empty_model :
    all_models ([] : List String) = [([] : Model)] := rfl

/-- Claim C10: the token classifier `is_variable` is not total over
arbitrary text: on the empty string the code indexes the first character
unconditionally and fails (embedded as `none`) instead of returning false,
while every non-empty string produces a boolean. -/
theorem is_variable_empty_string_fails :
    is_variable "" = none ∧
      ∀ (c : Char) (cs : List Char),
        (is_variable (String.mk (c :: cs))).isSome = true := by
  refine ⟨rfl, fun c cs => ?_⟩
  simp [is_variable]

theorem is_variable_empty_string_fails_witness :
    (is_variable (String.mk ['p', '3'])).isSome = true :=
  is_variable_empty_string_fails.2 'p' ['3']

/-- Claim C4: for every constructible formula and every model covering its
variables, `evaluate` computes the standard truth-functional semantics (a
variable is looked up in the model, `T`/`F` are the true/false literals,
`~` negates the child, `&` is conjunction, `|` is disjunction, `->` is
material implication, false only when the first operand is true and the
second false); on the specification's examples, `~(p&q76)` evaluates to
true under `{p:T, q76:F}` and to false under `{p:T, q76:T}`. -/
theorem evaluate_matches_standard_semantics :
    (∀ (f : Formula) (m : Model), f.valid = true → covers m f = true →
        evaluate f m = evaluateStandard f m) ∧
    (parse "~(p&q76)").map
        (fun f => evaluate f [("p", true), ("q76", false)]) = some true ∧
    (parse "~(p&q76)").map
        (fun f => evaluate f [("p", true), ("q76", true)]) = some false := by
  refine ⟨?_, by decide, by decide⟩
  intro f m hv hc
  induction f with
  | leaf r =>
      by_cases hvr : is_variableB r = true
      · simp [evaluate, evaluateStandard, hvr]
      · by_cases hF : r = "F"
        · subst hF; simp [evaluate, evaluateStandard, hvr]
        · by_cases hT : r = "T" <;>
            simp [evaluate, evaluateStandard, hvr, hF, hT]
  | unary r c ih =>
      simp only [Formula.valid, Bool.and_eq_true] at hv
      simp only [covers, Formula.vars] at hc
      simp [evaluate, evaluateStandard, ih hv.2 hc]
  | binary r a b iha ihb =>
      simp only [Formula.valid, Bool.and_eq_true] at hv
      obtain ⟨⟨hr, hva⟩, hvb⟩ := hv
      simp only [covers, Formula.vars, List.all_append, Bool.and_eq_true] at hc
      have ha' := iha hva hc.1
      have hb' := ihb hvb hc.2
      simp only [is_binary, Bool.or_eq_true, decide_eq_true_eq] at hr
      rcases hr with (hr | hr) | hr
      all_goals subst hr
      all_goals
        simp [evaluate, evaluateStandard, ha', hb'] <;>
          cases evaluateStandard a m <;> cases evaluateStandard b m <;> rfl

theorem evaluate_matches_standard_semantics_witness :
    ((Formula.binary "->" (.leaf "p") (.leaf "q")).valid = true ∧
      covers [("p", true), ("q", false)]
        (Formula.binary "->" (.leaf "p") (.leaf "q")) = true) ∧
    evaluate (Formula.binary "->" (.leaf "p") (.leaf "q"))
        [("p", true), ("q", false)] =
      evaluateStandard (Formula.binary "->" (.leaf "p") (.leaf "q"))
        [("p", true), ("q", false)] :=
  ⟨⟨by decide, by decide⟩,
    evaluate_matches_standard_semantics.1 _ _ (by decide) (by decide)⟩

/-- Claim C5: substituting the operator `&` by the template `~(~p|~q)` in
the formula parsed from `((x&y)&~z)` returns a formula whose standard
string representation is exactly `~(~~(~x|~y)|~~z)` (the De Morgan
expansion). -/
theorem substitute_operators_demorgan_example :
    ((parse "((x&y)&~z)").bind fun f =>
        (parse "~(~p|~q)").map fun t =>
          (substitute_operators f [("&", t)]).repr) =
      some "~(~~(~x|~y)|~~z)" := by decide

/-- Claim C6: `substitute_variables` replaces every variable node whose
name is a key of the map by the mapped replacement formula verbatim (a
single top-down pass: the replacement is inserted unchanged and never
itself substituted), copies every other node structurally, and reproduces
the source docstring example on `((p->p)|r)`. -/
theorem substitute_variables_single_pass :
    (∀ (m : List (String × Formula)) (v : String) (g : Formula),
        is_variableB v = true → lookupFormula m v = some g →
        substitute_variables (.leaf v) m = g) ∧
    (∀ (m : List (String × Formula)) (v : String),
        is_variableB v = true → lookupFormula m v = none →
        substitute_variables (.leaf v) m = .leaf v) ∧
    (∀ (m : List (String × Formula)) (r : String) (c : Formula),
        substitute_variables (.unary r c) m =
          .unary r (substitute_variables c m)) ∧
    (∀ (m : List (String × Formula)) (r : String) (a b : Formula),
        substitute_variables (.binary r a b) m =
          .binary r (substitute_variables a m) (substitute_variables b m)) ∧
    ((parse "((p->p)|r)").bind fun f =>
        (parse "(q&r)").bind fun qr =>
          (parse "p").map fun pp =>
            (substitute_variables f [("p", qr), ("r", pp)]).repr) =
      some "(((q&r)->(q&r))|p)" := by
  refine ⟨?_, ?_, fun m r c => rfl, fun m r a b => rfl, by decide⟩
  · intro m v g hvv hlook
    unfold substitute_variables
    rw [hvv, hlook]
    rfl
  · intro m v hvv hlook
    unfold substitute_variables
    rw [hvv, hlook]
    rfl

theorem substitute_variables_single_pass_witness :
    (is_variableB "p" = true ∧
      lookupFormula [("p", Formula.leaf "q")] "p" = some (.leaf "q")) ∧
    substitute_variables (.leaf "p") [("p", Formula.leaf "q")] =
      .leaf "q" :=
  ⟨⟨by decide, by decide⟩,
    substitute_variables_single_pass.1 _ _ _ (by decide) (by decide)⟩

/-- Failure results of `parse_variable` carry a non-empty error message in
the suffix position. -/
theorem parse_variable_none_ne_nil (s : List Char) :
    (parse_variable s).1 = none → (parse_variable s).2 ≠ [] := by
  cases s with
  | nil => intro _; decide
  | cons c rest =>
      simp only [parse_variable]
      split
      · intro h; simp at h
      · intro _; decide

/-- Failure results of `_parse_prefix` carry a non-empty error message in
the suffix position: the second component of the returned pair is empty
only on a successful, fully consuming parse. -/
theorem parsePrefixF_none_ne_nil (fuel : Nat) (s : List Char) :
    (parsePrefixF fuel s).1 = none → (parsePrefixF fuel s).2 ≠ [] := by
  cases s with
  | nil => simp only [parsePrefixF]; intro _; decide
  | cons c rest =>
    cases fuel with
    | zero => simp only [parsePrefixF]; intro _; decide
    | succ fuel =>
      simp only [parsePrefixF]
      split
      · split
        · intro _; decide
        · split
          · intro _; decide
          · split
            · intro _; decide
            · split
              · intro h; simp at h
              · intro _; decide
      · split
        · exact parse_variable_none_ne_nil _
        · split
          · intro h; simp at h
          · split
            · split
              · intro h; simp at h
              · intro _; decide
            · intro _; decide

/-- Claim C8: `is_formula` is a total predicate that is true iff parsing
the whole input string succeeds and consumes it entirely; in particular
`(p&q` and `->p` are rejected, and the empty string yields a parse failure
rather than a formula. -/
theorem is_formula_iff_full_parse :
    (∀ s : String, is_formula s = true ↔
        ((parsePrefixTop s).1.isSome = true ∧ (parsePrefixTop s).2 = [])) ∧
    is_formula "(p&q" = false ∧
    is_formula "->p" = false ∧
    parsePrefixTop "" = (none, "Error, empty string".data) := by
  refine ⟨?_, by decide, by decide, by decide⟩
  intro s
  constructor
  · intro h
    have h2 : (parsePrefixTop s).2 = [] := by simpa [is_formula] using h
    refine ⟨?_, h2⟩
    cases hx : (parsePrefixTop s).1 with
    | some f => rfl
    | none =>
        exact absurd h2 (parsePrefixF_none_ne_nil s.data.length s.data hx)
  · rintro ⟨_, h2⟩
    simp [is_formula, h2]

theorem is_formula_iff_full_parse_witness :
    is_formula "p" = true ↔
      ((parsePrefixTop "p").1.isSome = true ∧ (parsePrefixTop "p").2 = []) :=
  is_formula_iff_full_parse.1 "p"

/-- Claim C7: for every inference rule and every model covering the
variables of its assumptions and conclusion, `evaluate_inference` returns
true iff, whenever every assumption evaluates to true under the model, the
conclusion also evaluates to true; in particular it is vacuously true when
some assumption evaluates to false. -/
theorem evaluate_inference_iff :
    ∀ (rule : InferenceRule) (model : Model),
      (rule.assumptions.all fun a => covers model a) = true →
      covers model rule.conclusion = true →
      ((evaluate_inference rule model = true ↔
          ((∀ a ∈ rule.assumptions, evaluate a model = true) →
            evaluate rule.conclusion model = true)) ∧
        ((∃ a ∈ rule.assumptions, evaluate a model = false) →
          evaluate_inference rule model = true)) := by
  intro rule model _ _
  constructor
  · constructor
    · intro hEI hall
      have hallb : (rule.assumptions.all fun a => evaluate a model) = true := by
        rw [List.all_eq_true]; exact hall
      unfold evaluate_inference at hEI
      rw [hallb] at hEI
      simpa using hEI
    · intro h
      unfold evaluate_inference
      cases hallb : rule.assumptions.all fun a => evaluate a model with
      | false => simp
      | true =>
          have hcon := h (by rw [List.all_eq_true] at hallb; exact hallb)
          simp [hcon]
  · rintro ⟨a, ha, hfa⟩
    unfold evaluate_inference
    have hallb : (rule.assumptions.all fun a => evaluate a model) = false := by
      rw [List.all_eq_false]
      exact ⟨a, ha, by simp [hfa]⟩
    simp [hallb]

theorem evaluate_inference_iff_witness :
    ((([Formula.leaf "p"] : List Formula).all fun a =>
        covers [("p", false), ("q", false)] a) = true ∧
      covers [("p", false), ("q", false)] (Formula.leaf "q") = true) ∧
    ((evaluate_inference ⟨[.leaf "p"], .leaf "q"⟩
          [("p", false), ("q", false)] = true ↔
        ((∀ a ∈ ([Formula.leaf "p"] : List Formula),
            evaluate a [("p", false), ("q", false)] = true) →
          evaluate (Formula.leaf "q") [("p", false), ("q", false)] = true)) ∧
      ((∃ a ∈ ([Formula.leaf "p"] : List Formula),
          evaluate a [("p", false), ("q", false)] = false) →
        evaluate_inference ⟨[.leaf "p"], .leaf "q"⟩
            [("p", false), ("q", false)] = true)) :=
  ⟨⟨by decide, by decide⟩,
    evaluate_inference_iff ⟨[.leaf "p"], .leaf "q"⟩
      [("p", false), ("q", false)] (by decide) (by decide)⟩

end Prop1

namespace Prop1

/-- Every `n`-bit representation has length `n`. -/
theorem natToBits_length : ∀ (n i : Nat), (natToBits n i).length = n := by
  intro n
  induction n with
  | zero => intro i; rfl
  | succ n ih => intro i; simp [natToBits, ih]

/-- The product tuples of `all_models` are exactly the big-endian binary
representations of `0, 1, ..., 2 ^ n - 1`, in counting order. -/
theorem boolTuples_eq_range :
    ∀ n : Nat, boolTuples n = (List.range (2 ^ n)).map (natToBits n) := by
  intro n
  induction n with
  | zero => decide
  | succ n ih =>
      have hsplit : 2 ^ (n + 1) = 2 ^ n + 2 ^ n := by ring
      rw [boolTuples, ih, hsplit, List.range_add, List.map_append,
        List.map_map, List.map_map, List.map_map]
      congr 1
      · apply List.map_congr_left
        intro i hi
        have hi' : i < 2 ^ n := List.mem_range.mp hi
        simp [natToBits, Nat.not_le.mpr hi', Nat.mod_eq_of_lt hi',
          Function.comp]
      · apply List.map_congr_left
        intro i hi
        have hi' : i < 2 ^ n := List.mem_range.mp hi
        simp [natToBits, Nat.le_add_right, Nat.add_mod_left,
          Nat.mod_eq_of_lt hi', Function.comp]

/-- Writing a fresh key into a dictionary appends it at the end. -/
theorem dinsert_of_notMem :
    ∀ (d : Model) (k : String) (v : Bool), k ∉ modelKeys d →
      dinsert d k v = d ++ [(k, v)] := by
  intro d
  induction d with
  | nil => intro k v _; rfl
  | cons p d ih =>
      intro k v hk
      simp only [modelKeys, List.map_cons, List.mem_cons] at hk
      push_neg at hk
      simp only [dinsert, if_neg (Ne.symm hk.1)]
      rw [ih k v (by simpa [modelKeys] using hk.2)]
      rfl

/-- Folding dictionary writes of pairwise-distinct fresh keys over an
accumulator appends the pair list. -/
theorem foldl_dinsert_fresh :
    ∀ (ps : List (String × Bool)) (acc : Model),
      (∀ p ∈ ps, p.1 ∉ modelKeys acc) → (ps.map Prod.fst).Nodup →
      ps.foldl (fun d p => dinsert d p.1 p.2) acc = acc ++ ps := by
  intro ps
  induction ps with
  | nil => intro acc _ _; simp
  | cons p ps ih =>
      intro acc hfresh hnd
      simp only [List.map_cons, List.nodup_cons] at hnd
      rw [List.foldl_cons,
        dinsert_of_notMem acc p.1 p.2 (hfresh p (List.mem_cons_self p ps)),
        ih (acc ++ [p]) ?_ hnd.2]
      · simp
      · intro q hq
        have h1 : q.1 ∉ modelKeys acc := hfresh q (List.mem_cons_of_mem p hq)
        have h2 : q.1 ≠ p.1 := by
          intro he
          exact hnd.1 (he ▸ List.mem_map_of_mem Prod.fst hq)
        intro hmem
        simp only [modelKeys, List.map_append] at hmem
        rcases List.mem_append.mp hmem with h | h
        · exact h1 h
        · simp at h
          exact h2 h

/-- With pairwise-distinct variables, the dictionary built by `all_models`
is the zip of the variable list with the assignment tuple, in order. -/
theorem buildModel_eq_zip (V : List String) (t : List Bool)
    (hnd : V.Nodup) (hlen : t.length = V.length) :
    buildModel V t = V.zip t := by
  unfold buildModel
  rw [foldl_dinsert_fresh (V.zip t) [] (by simp [modelKeys]) ?_]
  · simp
  · rw [List.map_fst_zip V t (le_of_eq hlen.symm)]
    exact hnd

/-- With pairwise-distinct variables, `all_models` enumerates exactly the
models indexed `0, 1, ..., 2 ^ n - 1`, the model of index `i` zipping the
variable list with the big-endian bits of `i`. -/
theorem all_models_eq_range (V : List String) (hnd : V.Nodup) :
    all_models V =
      (List.range (2 ^ V.length)).map
        (fun i => V.zip (natToBits V.length i)) := by
  unfold all_models
  rw [boolTuples_eq_range, List.map_map]
  apply List.map_congr_left
  intro i _
  exact buildModel_eq_zip V _ hnd (natToBits_length V.length i)

/-- Claim C3: for every list of distinct variable names, `all_models`
yields exactly `2 ^ n` models, ordered as counting from `0` to `2 ^ n - 1`
in binary with `False < True` and the first variable as the most
significant bit; in particular `all_models(['p','q'])` is exactly the four
models `FF, FT, TF, TT` in that order. -/
theorem all_models_lex_order :
    (∀ (V : List String), V.Nodup → (∀ v ∈ V, is_variableB v = true) →
        (all_models V).length = 2 ^ V.length ∧
          all_models V =
            (List.range (2 ^ V.length)).map
              (fun i => V.zip (natToBits V.length i))) ∧
    all_models ["p", "q"] =
      [[("p", false), ("q", false)], [("p", false), ("q", true)],
        [("p", true), ("q", false)], [("p", true), ("q", true)]] := by
  refine ⟨?_, by decide⟩
  intro V hnd _
  have h := all_models_eq_range V hnd
  exact ⟨by rw [h]; simp, h⟩

theorem all_models_lex_order_witness :
    (["p", "q"].Nodup ∧ ∀ v ∈ ["p", "q"], is_variableB v = true) ∧
    ((all_models ["p", "q"]).length = 2 ^ (["p", "q"] : List String).length ∧
      all_models ["p", "q"] =
        (List.range (2 ^ (["p", "q"] : List String).length)).map
          (fun i => ["p", "q"].zip (natToBits (["p", "q"] : List String).length i))) :=
  ⟨⟨by decide, by decide⟩,
    all_models_lex_order.1 ["p", "q"] (by decide) (by decide)⟩

end Prop1

namespace Prop1

/-- Splitting a character run at a digit boundary: a run of digits followed
by a suffix that does not begin with a digit is taken and dropped
exactly. -/
theorem takeWhile_digits_of_append (l r : List Char)
    (hl : l.all Char.isDigit = true)
    (hr : ∀ d, r.head? = some d → d.isDigit = false) :
    (l ++ r).takeWhile Char.isDigit = l ∧
      (l ++ r).dropWhile Char.isDigit = r := by
  induction l with
  | nil =>
      simp only [List.nil_append]
      cases r with
      | nil => simp
      | cons d r' =>
          have hd : d.isDigit = false := hr d rfl
          simp [List.takeWhile_cons, List.dropWhile_cons, hd]
  | cons a l ih =>
      simp only [List.all_cons, Bool.and_eq_true] at hl
      obtain ⟨ha, hl'⟩ := hl
      have h2 := ih hl'
      simp [List.takeWhile_cons, List.dropWhile_cons, ha, h2.1, h2.2]

/-- The parser reads back exactly the standard string representation of
any constructible formula: parsing `repr f ++ rest` (with `rest` not
beginning with a digit, so the final variable token is not extended)
succeeds with `f` and leaves exactly `rest`, for any fuel at least the
input length. -/
theorem parsePrefixF_repr (f : Formula) : f.valid = true →
    ∀ (rest : List Char) (fuel : Nat),
      (∀ d, rest.head? = some d → d.isDigit = false) →
      f.repr.data.length + rest.length ≤ fuel →
      parsePrefixF fuel (f.repr.data ++ rest) = (some f, rest) := by
  induction f with
  | leaf r =>
      intro hv rest fuel hrest hfuel
      simp only [Formula.valid, Bool.or_eq_true] at hv
      rcases hv with hvr | hcr
      · obtain ⟨g, rfl⟩ : ∃ g, fuel = g + 1 := by
          rcases fuel with _ | g
          · exfalso
            cases hd : r.data with
            | nil => simp [is_variableB, is_variable, hd] at hvr
            | cons c ds =>
                rw [show (Formula.leaf r).repr = r from rfl, hd] at hfuel
                simp at hfuel
          · exact ⟨g, rfl⟩
        cases hd : r.data with
        | nil => simp [is_variableB, is_variable, hd] at hvr
        | cons c ds =>
            have hparts : ((decide ('p' ≤ c) && decide (c ≤ 'z')) &&
                (ds.isEmpty || ds.all Char.isDigit)) = true := by
              simpa [is_variableB, is_variable, hd] using hvr
            rw [Bool.and_eq_true, Bool.and_eq_true] at hparts
            obtain ⟨⟨hc1, hc2⟩, hds0⟩ := hparts
            rw [decide_eq_true_eq] at hc1 hc2
            have hds : ds.all Char.isDigit = true := by
              cases ds with
              | nil => rfl
              | cons e es => simpa using hds0
            have hne : ¬ c = '(' := by
              intro h; subst h; exact absurd hc1 (by decide)
            have hvb1 : is_variableB (String.mk [c]) = true := by
              simp [is_variableB, is_variable, hc1, hc2]
            rw [show (Formula.leaf r).repr = r from rfl, hd]
            simp only [List.cons_append, parsePrefixF]
            rw [if_neg hne, if_pos hvb1]
            simp only [parse_variable]
            rw [if_pos hvb1]
            have htd := takeWhile_digits_of_append ds rest hds hrest
            simp only [List.append_eq]
            rw [htd.1, htd.2, ← hd]
      · have hr' : r = "T" ∨ r = "F" := by
          simpa [is_constant] using hcr
        obtain ⟨g, rfl⟩ : ∃ g, fuel = g + 1 := by
          rcases fuel with _ | g
          · exfalso; rcases hr' with rfl | rfl <;> simp [Formula.repr] at hfuel
          · exact ⟨g, rfl⟩
        rcases hr' with rfl | rfl <;> rfl
  | unary r c ih =>
      intro hv rest fuel hrest hfuel
      simp only [Formula.valid, Bool.and_eq_true] at hv
      obtain ⟨hr, hvc⟩ := hv
      have hr' : r = "~" := by simpa [is_unary] using hr
      subst hr'
      have hdata : (Formula.repr (.unary "~" c)).data = '~' :: c.repr.data := by
        show ("~" ++ c.repr).data = _
        rw [String.data_append]
        rfl
      rw [hdata] at hfuel ⊢
      obtain ⟨g, rfl⟩ : ∃ g, fuel = g + 1 := by
        rcases fuel with _ | g
        · exfalso; simp at hfuel
        · exact ⟨g, rfl⟩
      have hfc : c.repr.data.length + rest.length ≤ g := by
        simp only [List.length_cons] at hfuel
        omega
      simp only [List.cons_append, parsePrefixF, List.append_eq]
      rw [if_neg (by decide), if_neg (by decide), if_neg (by decide),
        if_pos (by decide)]
      rw [ih hvc rest g hrest hfc]
  | binary r a b iha ihb =>
      intro hv rest fuel hrest hfuel
      simp only [Formula.valid, Bool.and_eq_true] at hv
      obtain ⟨⟨hr, hva⟩, hvb⟩ := hv
      have hr' : (r = "&" ∨ r = "|") ∨ r = "->" := by
        simpa [is_binary] using hr
      rcases hr' with (rfl | rfl) | rfl
      · have hdata : (Formula.repr (.binary "&" a b)).data =
            '(' :: (a.repr.data ++ ('&' :: (b.repr.data ++ [')']))) := by
          show ("(" ++ a.repr ++ "&" ++ b.repr ++ ")").data = _
          simp [String.data_append]
        rw [hdata] at hfuel ⊢
        obtain ⟨g, rfl⟩ : ∃ g, fuel = g + 1 := by
          rcases fuel with _ | g
          · exfalso; simp at hfuel
          · exact ⟨g, rfl⟩
        simp only [List.length_cons, List.length_append, List.length_nil]
          at hfuel
        have ha2 : parsePrefixF g
            (a.repr.data ++ ('&' :: (b.repr.data ++ ')' :: rest))) =
            (some a, '&' :: (b.repr.data ++ ')' :: rest)) := by
          apply iha hva
          · intro d hd
            simp at hd
            subst hd
            decide
          · simp only [List.length_cons, List.length_append]
            omega
        have hb2 : parsePrefixF g (b.repr.data ++ ')' :: rest) =
            (some b, ')' :: rest) := by
          apply ihb hvb
          · intro d hd
            simp at hd
            subst hd
            decide
          · simp only [List.length_cons]
            omega
        have hop : parse_operator ('&' :: (b.repr.data ++ ')' :: rest)) =
            (some "&", b.repr.data ++ ')' :: rest) := rfl
        simp only [List.cons_append, List.append_assoc, List.singleton_append,
          List.nil_append, parsePrefixF, if_true, List.append_eq]
        rw [ha2]
        dsimp only
        rw [hop]
        dsimp only
        rw [hb2]
        rfl
      · have hdata : (Formula.repr (.binary "|" a b)).data =
            '(' :: (a.repr.data ++ ('|' :: (b.repr.data ++ [')']))) := by
          show ("(" ++ a.repr ++ "|" ++ b.repr ++ ")").data = _
          simp [String.data_append]
        rw [hdata] at hfuel ⊢
        obtain ⟨g, rfl⟩ : ∃ g, fuel = g + 1 := by
          rcases fuel with _ | g
          · exfalso; simp at hfuel
          · exact ⟨g, rfl⟩
        simp only [List.length_cons, List.length_append, List.length_nil]
          at hfuel
        have ha2 : parsePrefixF g
            (a.repr.data ++ ('|' :: (b.repr.data ++ ')' :: rest))) =
            (some a, '|' :: (b.repr.data ++ ')' :: rest)) := by
          apply iha hva
          · intro d hd
            simp at hd
            subst hd
            decide
          · simp only [List.length_cons, List.length_append]
            omega
        have hb2 : parsePrefixF g (b.repr.data ++ ')' :: rest) =
            (some b, ')' :: rest) := by
          apply ihb hvb
          · intro d hd
            simp at hd
            subst hd
            decide
          · simp only [List.length_cons]
            omega
        have hop : parse_operator ('|' :: (b.repr.data ++ ')' :: rest)) =
            (some "|", b.repr.data ++ ')' :: rest) := rfl
        simp only [List.cons_append, List.append_assoc, List.singleton_append,
          List.nil_append, parsePrefixF, if_true, List.append_eq]
        rw [ha2]
        dsimp only
        rw [hop]
        dsimp only
        rw [hb2]
        rfl
      · have hdata : (Formula.repr (.binary "->" a b)).data =
            '(' :: (a.repr.data ++ ('-' :: '>' :: (b.repr.data ++ [')']))) := by
          show ("(" ++ a.repr ++ "->" ++ b.repr ++ ")").data = _
          simp [String.data_append]
        rw [hdata] at hfuel ⊢
        obtain ⟨g, rfl⟩ : ∃ g, fuel = g + 1 := by
          rcases fuel with _ | g
          · exfalso; simp at hfuel
          · exact ⟨g, rfl⟩
        simp only [List.length_cons, List.length_append, List.length_nil]
          at hfuel
        have ha2 : parsePrefixF g
            (a.repr.data ++ ('-' :: '>' :: (b.repr.data ++ ')' :: rest))) =
            (some a, '-' :: '>' :: (b.repr.data ++ ')' :: rest)) := by
          apply iha hva
          · intro d hd
            simp at hd
            subst hd
            decide
          · simp only [List.length_cons, List.length_append]
            omega
        have hb2 : parsePrefixF g (b.repr.data ++ ')' :: rest) =
            (some b, ')' :: rest) := by
          apply ihb hvb
          · intro d hd
            simp at hd
            subst hd
            decide
          · simp only [List.length_cons]
            omega
        have hop : parse_operator ('-' :: '>' :: (b.repr.data ++ ')' :: rest)) =
            (some "->", b.repr.data ++ ')' :: rest) := rfl
        simp only [List.cons_append, List.append_assoc, List.singleton_append,
          List.nil_append, parsePrefixF, if_true, List.append_eq]
        rw [ha2]
        dsimp only
        rw [hop]
        dsimp only
        rw [hb2]
        rfl

/-- Claim C2: for every constructible formula `f`, `is_formula(str(f))` is
true and `parse(str(f))` returns `f` itself (hence in particular a formula
with the same standard string serialization). -/
theorem parse_repr_roundtrip :
    ∀ f : Formula, f.valid = true →
      is_formula f.repr = true ∧ parse f.repr = some f := by
  intro f hv
  have h := parsePrefixF_repr f hv [] f.repr.data.length
    (by intro d hd; simp at hd) (by simp)
  have htop : parsePrefixTop f.repr = (some f, []) := by
    unfold parsePrefixTop
    simpa using h
  have hisf : is_formula f.repr = true := by
    simp [is_formula, htop]
  refine ⟨hisf, ?_⟩
  unfold parse
  simp [hisf, htop]

end Prop1

namespace Prop1

theorem parse_repr_roundtrip_witness :
    (Formula.binary "->" (.leaf "p") (.leaf "q76")).valid = true ∧
    (is_formula (Formula.binary "->" (.leaf "p") (.leaf "q76")).repr = true ∧
      parse (Formula.binary "->" (.leaf "p") (.leaf "q76")).repr =
        some (Formula.binary "->" (.leaf "p") (.leaf "q76"))) :=
  ⟨by decide, parse_repr_roundtrip _ (by decide)⟩

end Prop1

namespace Prop1

/-- Big-endian bit strings of a fixed width are injective below `2 ^ n`. -/
theorem natToBits_inj :
    ∀ (n i j : Nat), i < 2 ^ n → j < 2 ^ n →
      natToBits n i = natToBits n j → i = j := by
  intro n
  induction n with
  | zero => intro i j hi hj _; omega
  | succ n ih =>
      intro i j hi hj heq
      have hsplit : 2 ^ (n + 1) = 2 ^ n + 2 ^ n := by ring
      simp only [natToBits, List.cons.injEq, decide_eq_decide] at heq
      have hmod : i % 2 ^ n = j % 2 ^ n :=
        ih _ _ (Nat.mod_lt _ (Nat.pos_pow_of_pos n (by norm_num)))
          (Nat.mod_lt _ (Nat.pos_pow_of_pos n (by norm_num))) heq.2
      by_cases hle : 2 ^ n ≤ i
      · have hle' : 2 ^ n ≤ j := heq.1.mp hle
        have h1 : i % 2 ^ n = i - 2 ^ n := by
          rw [Nat.mod_eq_sub_mod hle]
          exact Nat.mod_eq_of_lt (by omega)
        have h2 : j % 2 ^ n = j - 2 ^ n := by
          rw [Nat.mod_eq_sub_mod hle']
          exact Nat.mod_eq_of_lt (by omega)
        omega
      · have hle' : ¬ 2 ^ n ≤ j := fun h => hle (heq.1.mpr h)
        have h1 : i % 2 ^ n = i := Nat.mod_eq_of_lt (by omega)
        have h2 : j % 2 ^ n = j := Nat.mod_eq_of_lt (by omega)
        omega

/-- Key lookup over zipped assignments: two assignments over the same
distinct variables agree on every lookup iff they are equal. -/
theorem zip_lookup_eq_iff :
    ∀ (V : List String) (t t' : List Bool), V.Nodup →
      t.length = V.length → t'.length = V.length →
      ((∀ v ∈ V, (modelGet (V.zip t') v).getD false =
          (modelGet (V.zip t) v).getD false) ↔ t' = t) := by
  intro V
  induction V with
  | nil =>
      intro t t' _ ht ht'
      rw [List.length_eq_zero.mp ht, List.length_eq_zero.mp ht']
      simp
  | cons v V ih =>
      intro t t' hnd ht ht'
      cases t with
      | nil => simp at ht
      | cons b t1 =>
          cases t' with
          | nil => simp at ht'
          | cons b' t1' =>
              simp only [List.length_cons, Nat.succ.injEq] at ht ht'
              simp only [List.nodup_cons] at hnd
              constructor
              · intro hall
                have hhead := hall v (List.mem_cons_self v V)
                simp [List.zip_cons_cons, modelGet] at hhead
                have htail : t1' = t1 := by
                  rw [← ih t1 t1' hnd.2 ht ht']
                  intro w hw
                  have hwv : ¬ v = w := fun he => hnd.1 (he ▸ hw)
                  have := hall w (List.mem_cons_of_mem v hw)
                  simpa [List.zip_cons_cons, modelGet, if_neg hwv] using this
                rw [hhead, htail]
              · rintro ⟨rfl, rfl⟩ w hw
                rcases List.mem_cons.mp hw with rfl | hw'
                · simp [List.zip_cons_cons, modelGet]
                · have hwv : ¬ v = w := fun he => hnd.1 (he ▸ hw')
                  simp [List.zip_cons_cons, modelGet, if_neg hwv]

/-- The conjunctive clause of `_synthesize_for_model_helper` evaluates to
true in `m'` exactly when `m'` agrees with `m` on every key of the
(non-empty) key list. -/
theorem evaluate_synthHelper :
    ∀ (W : List String) (m m' : Model), W ≠ [] →
      (∀ v ∈ W, is_variableB v = true) →
      (evaluate (synthHelper W m) m' = true ↔
        ∀ v ∈ W, (modelGet m' v).getD false = (modelGet m v).getD false) := by
  intro W
  induction W with
  | nil => intro m m' h _; exact absurd rfl h
  | cons v W ih =>
      intro m m' _ hvars
      have hv : is_variableB v = true := hvars v (List.mem_cons_self v W)
      have hlit : evaluate
          (if (modelGet m v).getD false then Formula.leaf v
            else Formula.unary "~" (Formula.leaf v)) m' = true ↔
          (modelGet m' v).getD false = (modelGet m v).getD false := by
        cases hb : (modelGet m v).getD false <;>
          simp [evaluate, hv, hb]
      cases W with
      | nil =>
          rw [show synthHelper [v] m =
              (if (modelGet m v).getD false then Formula.leaf v
                else Formula.unary "~" (Formula.leaf v)) from rfl]
          rw [hlit]
          simp
      | cons w W' =>
          rw [show synthHelper (v :: w :: W') m =
              Formula.binary "&"
                (if (modelGet m v).getD false then Formula.leaf v
                  else Formula.unary "~" (Formula.leaf v))
                (synthHelper (w :: W') m) from rfl]
          have hih := ih m m' (by simp)
            (fun u hu => hvars u (List.mem_cons_of_mem v hu))
          rw [show ∀ x y : Formula, evaluate (.binary "&" x y) m' =
              (evaluate x m' && evaluate y m') from fun x y => by
            simp [evaluate]]
          rw [Bool.and_eq_true, hlit, hih]
          constructor
          · rintro ⟨h1, h2⟩ u hu
            rcases List.mem_cons.mp hu with rfl | hu'
            · exact h1
            · exact h2 u hu'
          · intro h
            exact ⟨h v (List.mem_cons_self v _),
              fun u hu => h u (List.mem_cons_of_mem v hu)⟩

/-- The key view of a zipped model is the variable list itself. -/
theorem modelKeys_zip (V : List String) (t : List Bool)
    (ht : t.length = V.length) : modelKeys (V.zip t) = V := by
  unfold modelKeys
  exact List.map_fst_zip V t (le_of_eq ht.symm)

/-- The clause synthesized for the model of assignment `t` holds in the
model of assignment `t'` exactly when `t' = t` (same distinct non-empty
variable list). -/
theorem evaluate_synthForModel_zip (V : List String) (t t' : List Bool)
    (hne : V ≠ []) (hnd : V.Nodup) (hvars : ∀ v ∈ V, is_variableB v = true)
    (ht : t.length = V.length) (ht' : t'.length = V.length) :
    (evaluate (synthForModel (V.zip t)) (V.zip t') = true ↔ t' = t) := by
  unfold synthForModel
  rw [modelKeys_zip V t ht]
  rw [evaluate_synthHelper V (V.zip t) (V.zip t') hne hvars]
  exact zip_lookup_eq_iff V t t' hnd ht ht'

/-- Truth value of the disjunction accumulated by the loop of
`synthesize`: the fold result holds in `m'` iff the initial accumulator
does or some listed model with a true table entry has its clause hold. -/
theorem evalOpt_foldl_synthStep (values : List Bool) :
    ∀ (L : List (Nat × Model)) (acc : Option Formula) (m' : Model),
      evalOpt (L.foldl (synthStep values) acc) m' =
        (evalOpt acc m' ||
          L.any fun p =>
            values.getD p.1 false && evaluate (synthForModel p.2) m') := by
  intro L
  induction L with
  | nil => intro acc m'; simp
  | cons p L ih =>
      intro acc m'
      rw [List.foldl_cons, ih, List.any_cons]
      have hstep : evalOpt (synthStep values acc p) m' =
          (evalOpt acc m' ||
            (values.getD p.1 false && evaluate (synthForModel p.2) m')) := by
        cases hbit : values.getD p.1 false with
        | false =>
            have hs : synthStep values acc p = acc := by
              unfold synthStep; rw [hbit]; simp
            rw [hs]
            simp
        | true =>
            cases acc with
            | none =>
                have hs : synthStep values none p =
                    some (synthForModel p.2) := by
                  unfold synthStep; rw [hbit]; simp
                rw [hs]
                simp [evalOpt]
            | some f =>
                have hs : synthStep values (some f) p =
                    some (.binary "|" f (synthForModel p.2)) := by
                  unfold synthStep; rw [hbit]; simp
                rw [hs]
                simp only [evalOpt]
                rw [show ∀ x y : Formula, evaluate (.binary "|" x y) m' =
                    (evaluate x m' || evaluate y m') from fun x y => by
                  simp [evaluate]]
                simp
      rw [hstep, Bool.or_assoc]

/-- A fold of the `synthesize` accumulation step starting from a started
disjunction stays started. -/
theorem foldl_synthStep_some (values : List Bool) :
    ∀ (L : List (Nat × Model)) (f : Formula),
      ∃ g, L.foldl (synthStep values) (some f) = some g := by
  intro L
  induction L with
  | nil => intro f; exact ⟨f, rfl⟩
  | cons p L ih =>
      intro f
      rw [List.foldl_cons]
      unfold synthStep
      cases hbit : values.getD p.1 false with
      | false => exact ih f
      | true => exact ih _

/-- The fold of `synthesize` returns no formula exactly when it started
with none and every listed table entry is false. -/
theorem foldl_synthStep_none_iff (values : List Bool) :
    ∀ (L : List (Nat × Model)) (acc : Option Formula),
      (L.foldl (synthStep values) acc = none ↔
        acc = none ∧ ∀ p ∈ L, values.getD p.1 false = false) := by
  intro L
  induction L with
  | nil => intro acc; simp
  | cons p L ih =>
      intro acc
      rw [List.foldl_cons, ih]
      constructor
      · rintro ⟨hstep, hall⟩
        cases hbit : values.getD p.1 false with
        | false =>
            have hs : synthStep values acc p = acc := by
              unfold synthStep; rw [hbit]; simp
            rw [hs] at hstep
            refine ⟨hstep, fun q hq => ?_⟩
            rcases List.mem_cons.mp hq with rfl | hq'
            · exact hbit
            · exact hall q hq'
        | true =>
            exfalso
            cases acc with
            | none =>
                have hs : synthStep values none p =
                    some (synthForModel p.2) := by
                  unfold synthStep; rw [hbit]; simp
                rw [hs] at hstep
                simp at hstep
            | some f =>
                have hs : synthStep values (some f) p =
                    some (.binary "|" f (synthForModel p.2)) := by
                  unfold synthStep; rw [hbit]; simp
                rw [hs] at hstep
                simp at hstep
      · rintro ⟨hacc, hall⟩
        subst hacc
        have hbit : values.getD p.1 false = false :=
          hall p (List.mem_cons_self p L)
        constructor
        · unfold synthStep
          rw [hbit]
          simp
        · exact fun q hq => hall q (List.mem_cons_of_mem p hq)

/-- Enumerating a mapped range pairs each index with its image. -/
theorem enum_map_range {α : Type} (N : Nat) (f : Nat → α) :
    ((List.range N).map f).enum = (List.range N).map fun i => (i, f i) := by
  apply List.ext_getElem
  · simp
  · intro i h1 h2
    simp [List.getElem_enum]


/-- Any-predicate over a mapped list. -/
theorem any_map_pair {α β : Type} (l : List α) (g : α → β) (f : β → Bool) :
    (l.map g).any f = l.any fun a => f (g a) := by
  induction l with
  | nil => rfl
  | cons a l ih => simp [List.any_cons, ih]

/-- The truth table of the synthesized formula is exactly the requested
table, for a non-empty list of distinct valid variable names and a value
list of matching length. -/
theorem synthesize_truth_values_eq :
    ∀ (V : List String) (values : List Bool),
      V ≠ [] → V.Nodup → (∀ v ∈ V, is_variableB v = true) →
      values.length = 2 ^ V.length →
      truth_values (synthesize V values) (all_models V) = values := by
  intro V values hne hnd hvars hlen
  have hAM := all_models_eq_range V hnd
  have henum : (all_models V).enum =
      (List.range (2 ^ V.length)).map
        fun i => (i, V.zip (natToBits V.length i)) := by
    rw [hAM, enum_map_range]
  rcases hfoldc : (all_models V).enum.foldl (synthStep values) none with _ | φ
  · -- no table entry is true: the fixed contradiction is returned
    obtain ⟨v, W, rfl⟩ : ∃ v W, V = v :: W := by
      cases V with
      | nil => exact absurd rfl hne
      | cons v W => exact ⟨v, W, rfl⟩
    have hsyn : synthesize (v :: W) values =
        .binary "&" (.leaf v) (.unary "~" (.leaf v)) := by
      unfold synthesize
      rw [hfoldc]
    have hbits :=
      ((foldl_synthStep_none_iff values _ none).mp hfoldc).2
    rw [hsyn]
    apply List.ext_getElem
    · simp [truth_values, hAM, hlen]
    · intro j h1 h2
      simp only [truth_values, List.getElem_map]
      have hev : ∀ m : Model,
          evaluate (Formula.binary "&" (.leaf v) (.unary "~" (.leaf v))) m =
            false := by
        intro m
        simp [evaluate, hvars v (List.mem_cons_self v W)]
      rw [hev]
      have hj2n : j < 2 ^ (v :: W).length := by omega
      have hmem : ((j : Nat), (v :: W).zip (natToBits (v :: W).length j)) ∈
          (all_models (v :: W)).enum := by
        rw [henum]
        exact List.mem_map.mpr ⟨j, List.mem_range.mpr hj2n, rfl⟩
      have hj0 := hbits _ hmem
      rw [List.getD_eq_getElem values false h2] at hj0
      exact hj0.symm
  · -- some entry is true: the accumulated disjunction is returned
    have hsyn : synthesize V values = φ := by
      unfold synthesize
      rw [hfoldc]
    rw [hsyn]
    apply List.ext_getElem
    · simp [truth_values, hAM, hlen]
    · intro j h1 h2
      have hjm : j < (all_models V).length := by
        simpa [truth_values] using h1
      have hj2n : j < 2 ^ V.length := by omega
      simp only [truth_values, List.getElem_map]
      have hmj : (all_models V)[j] = V.zip (natToBits V.length j) := by
        simp [hAM]
      rw [hmj]
      have hev : evaluate φ (V.zip (natToBits V.length j)) =
          evalOpt ((all_models V).enum.foldl (synthStep values) none)
            (V.zip (natToBits V.length j)) := by
        rw [hfoldc]
        rfl
      rw [hev, evalOpt_foldl_synthStep, henum, any_map_pair]
      simp only [evalOpt, Bool.false_or]
      cases hvj : values[j] with
      | true =>
          apply List.any_eq_true.mpr
          refine ⟨j, List.mem_range.mpr hj2n, ?_⟩
          rw [List.getD_eq_getElem values false h2, hvj]
          have hself : evaluate
              (synthForModel (V.zip (natToBits V.length j)))
              (V.zip (natToBits V.length j)) = true :=
            (evaluate_synthForModel_zip V _ _ hne hnd hvars
              (natToBits_length _ _) (natToBits_length _ _)).mpr rfl
          rw [hself]
          rfl
      | false =>
          have hpt : ∀ i ∈ List.range (2 ^ V.length),
              (values.getD i false &&
                evaluate (synthForModel (V.zip (natToBits V.length i)))
                  (V.zip (natToBits V.length j))) = false := by
            intro i hi
            have hi2n : i < 2 ^ V.length := List.mem_range.mp hi
            cases hb : evaluate
                (synthForModel (V.zip (natToBits V.length i)))
                (V.zip (natToBits V.length j)) with
            | false => simp
            | true =>
                have hji : natToBits V.length j = natToBits V.length i :=
                  (evaluate_synthForModel_zip V _ _ hne hnd hvars
                    (natToBits_length _ _) (natToBits_length _ _)).mp hb
                have hij : j = i := natToBits_inj V.length j i hj2n hi2n hji
                subst hij
                rw [List.getD_eq_getElem values false h2, hvj]
                simp
          cases hany : (List.range (2 ^ V.length)).any
              (fun i => values.getD i false &&
                evaluate (synthForModel (V.zip (natToBits V.length i)))
                  (V.zip (natToBits V.length j))) with
          | false => rfl
          | true =>
              exfalso
              obtain ⟨i, hi, hgi⟩ := List.any_eq_true.mp hany
              rw [hpt i hi] at hgi
              exact Bool.false_ne_true hgi


/-- Claim C1 (amended: the variable list must also be duplicate-free):
for every non-empty list `V` of distinct variable names and every boolean
list `T` of length `2 ^ |V|`, `truth_values(synthesize(V, T),
all_models(V))` equals `T`; and when no entry of `T` is true, `synthesize`
returns the fixed contradiction `V[0] & ~V[0]`, whose truth value is false
in every model. -/
theorem synthesize_truth_table :
    ∀ (V : List String) (values : List Bool),
      V ≠ [] → V.Nodup → (∀ v ∈ V, is_variableB v = true) →
      values.length = 2 ^ V.length →
      truth_values (synthesize V values) (all_models V) = values ∧
      ((∀ b ∈ values, b = false) →
        ∃ (v : String) (W : List String), V = v :: W ∧
          synthesize V values =
            .binary "&" (.leaf v) (.unary "~" (.leaf v))) := by
  intro V values hne hnd hvars hlen
  refine ⟨synthesize_truth_values_eq V values hne hnd hvars hlen,
    fun hallf => ?_⟩
  obtain ⟨v, W, rfl⟩ : ∃ v W, V = v :: W := by
    cases V with
    | nil => exact absurd rfl hne
    | cons v W => exact ⟨v, W, rfl⟩
  have hfold : (all_models (v :: W)).enum.foldl (synthStep values) none =
      none := by
    apply (foldl_synthStep_none_iff values _ none).mpr
    refine ⟨rfl, fun p _ => ?_⟩
    rcases Nat.lt_or_ge p.1 values.length with hlt | hge
    · rw [List.getD_eq_getElem values false hlt]
      exact hallf _ (values.getElem_mem hlt)
    · exact List.getD_eq_default values false hge
  refine ⟨v, W, rfl, ?_⟩
  unfold synthesize
  rw [hfold]

/-- Claim C1 fails as stated when the variable list repeats a name: with
`V = ['p','p']` (non-empty, and `T` of length `2 ^ |V| = 4`) the synthesized
formula's truth values over `all_models(V)` differ from `T`. -/
theorem synthesize_truth_table_cex :
    ¬ (truth_values (synthesize ["p", "p"] [true, false, false, false])
        (all_models ["p", "p"]) = [true, false, false, false]) := by decide

theorem synthesize_truth_table_witness :
    ((["p", "q"] : List String) ≠ [] ∧ (["p", "q"] : List String).Nodup ∧
      (∀ v ∈ (["p", "q"] : List String), is_variableB v = true) ∧
      ([true, true, true, false] : List Bool).length =
        2 ^ (["p", "q"] : List String).length) ∧
    (truth_values (synthesize ["p", "q"] [true, true, true, false])
        (all_models ["p", "q"]) = [true, true, true, false] ∧
      ((∀ b ∈ ([true, true, true, false] : List Bool), b = false) →
        ∃ (v : String) (W : List String),
          (["p", "q"] : List String) = v :: W ∧
          synthesize ["p", "q"] [true, true, true, false] =
            .binary "&" (.leaf v) (.unary "~" (.leaf v)))) :=
  ⟨⟨by decide, by decide, by decide, by decide⟩,
    synthesize_truth_table ["p", "q"] [true, true, true, false]
      (by decide) (by decide) (by decide) (by decide)⟩

end Prop1
